import Mathlib

/-!
Verification of the YASA `SleepStaging` pipeline (`yasa/staging.py`).

The pipeline is shallowly embedded: floating-point sample and feature values
are modelled by `ℚ`; feature tables are association lists from column names to
value columns; Python's in-place mutation (of the metadata dict and of the
instance attributes) is made explicit by state passing; Python `assert`/`raise`
become `Except`.  Per-epoch numeric extractors whose exact float semantics are
irrelevant to the claims (Welch PSD, entropies, `sqrt`, `log10`) are abstracted
as function parameters; everything else follows the source line by line.
-/

/-! ### Sorting, percentiles and robust scaling

`np.sort` / `np.percentile(..., interpolation="linear")` /
`sklearn.preprocessing.robust_scale` as used in `SleepStaging.fit`.
-/

/-- Ascending sort of a value column (as performed by `np.percentile`). -/
def npSort (x : List ℚ) : List ℚ := x.insertionSort (· ≤ ·)

/-- Linear-interpolation percentile, the default of `np.percentile` (and of
`np.nanpercentile` on NaN-free data, which is what `sklearn`'s scaler calls):
for `n` values the percentile `p` sits at fractional rank `p·(n−1)/100` of the
sorted data and is linearly interpolated between its two neighbours. -/
def npPercentile (p : ℚ) (x : List ℚ) : ℚ :=
  let n := x.length
  let s := npSort x
  if n = 0 then 0
  else
    let rank : ℚ := p * (n - 1) / 100
    let i : ℤ := ⌊rank⌋
    let fr : ℚ := rank - (i : ℚ)
    if i + 1 < (n : ℤ) then
      s.getD i.toNat 0 + fr * (s.getD (i.toNat + 1) 0 - s.getD i.toNat 0)
    else s.getD (n - 1) 0

/-- `sklearn.preprocessing.robust_scale(col, quantile_range=(5, 95))`, per
column: subtract the median (the 50th percentile), divide by the 95th−5th
percentile range; a zero range is replaced by 1
(`sklearn.preprocessing._data._handle_zeros_in_scale`). -/
def robust_scale (x : List ℚ) : List ℚ :=
  let center := npPercentile 50 x
  let scale0 := npPercentile 95 x - npPercentile 5 x
  let scale := if scale0 = 0 then 1 else scale0
  x.map (fun y => (y - center) / scale)

/-! ### The two rolling means of `SleepStaging.fit` (staging.py lines 359-369) -/

/-- `features.rolling(window=11, center=True, min_periods=1, win_type="triang").mean()`
on one column: at row `i` the window covers offsets `-5..5`, offset `d` carries
the triangular weight `6 − |d|` (the source's comment:
`[1/6, 2/6, 3/6, 4/6, 5/6, 6/6 (X), 5/6, 4/6, 3/6, 2/6, 1/6]`, a common
rescaling of the weights leaves the weighted mean unchanged); positions outside
the series are dropped and the weighted mean is taken over the remaining
(always at least one, hence `min_periods=1` never yields a missing value). -/
def rollCentered (x : List ℚ) : List ℚ :=
  (List.range x.length).map (fun i =>
    let ws := (List.range 11).filterMap (fun k =>
      let j : ℤ := (i : ℤ) + (k : ℤ) - 5
      if 0 ≤ j ∧ j < (x.length : ℤ) then
        some (((6 - |(k : ℤ) - 5| : ℤ) : ℚ), x.getD j.toNat 0)
      else none)
    ((ws.map (fun wv => wv.1 * wv.2)).sum) / ((ws.map (fun wv => wv.1)).sum))

/-- `features.rolling(window=10, min_periods=1).mean()` on one column: at row
`i` the uniform mean of the up to 10 trailing values ending at (and including)
the current row. -/
def rollPast (x : List ℚ) : List ℚ :=
  (List.range x.length).map (fun i =>
    let w := (x.take (i + 1)).drop (i + 1 - 10)
    w.sum / (w.length : ℚ))

/-! ### Feature tables -/

/-- One feature column: the per-epoch values. -/
abbrev Col := List ℚ

/-- A feature table: columns in left-to-right order, keyed by name
(modelling a `pandas.DataFrame` indexed by epoch). -/
abbrev Table := List (String × Col)

/-- `DataFrame.add_suffix`: rename every column by appending `suf`. -/
def addSuffix (suf : String) (t : Table) : Table :=
  t.map (fun c => (c.1 ++ suf, c.2))

/-- Lines 359-372 of `fit`: compute the centered and the past rolling mean of
every column, robust-scale each, suffix them `_c5min_norm` / `_p5min_norm`, and
join them to the right of the base columns (base columns are kept). -/
def smoothNormalize (t : Table) : Table :=
  let rollc := addSuffix "_c5min_norm" (t.map (fun c => (c.1, robust_scale (rollCentered c.2))))
  let rollp := addSuffix "_p5min_norm" (t.map (fun c => (c.1, robust_scale (rollPast c.2))))
  t ++ rollc ++ rollp

/-- `features[name] = v` on a `DataFrame`: replace the column in place when the
name exists, otherwise append it as the rightmost column. -/
def setCol (t : Table) (name : String) (v : Col) : Table :=
  if t.any (fun c => c.1 == name) then
    t.map (fun c => if c.1 = name then (name, v) else c)
  else t ++ [(name, v)]

/-- The per-channel feature names of `fit`, in the insertion order of the
`feat` dict (staging.py lines 309-345): descriptive statistics, then the six
band powers for non-EMG channels, then the four power ratios for EEG only,
then total power, entropy and the two fractal dimensions. -/
def channelFeatureNames (c : String) : List String :=
  ["std", "iqr", "skew", "kurt", "nzc", "hmob", "hcomp"]
    ++ (if c ≠ "emg" then ["sdelta", "fdelta", "theta", "alpha", "sigma", "beta"] else [])
    ++ (if c = "eeg" then ["dt", "ds", "db", "at"] else [])
    ++ ["abspow", "perm", "higuchi", "petrosian"]

/-- One input channel: its type tag (`"eeg"`/`"eog"`/`"emg"`) together with its
per-feature column oracle. The oracle abstracts the numeric value of each
extractor of lines 300-345 (filtering, Welch PSD, entropies, ...), whose float
semantics none of the claims depend on; the set of names computed and every
later transformation are taken from the source. -/
abbrev Channel := String × (String → Col)

/-- Lines 297-356 of `fit`: for each channel compute its features, prefix each
feature name with the channel type and an underscore (`add_prefix(c + "_")`),
and concatenate the per-channel tables left to right (`pd.concat(axis=1)`). -/
def assembleBase (chs : List Channel) : Table :=
  chs.flatMap (fun ch =>
    (channelFeatureNames ch.1).map (fun f => (ch.1 ++ "_" ++ f, ch.2 f)))

/-- Python `int()` applied to a float: truncation toward zero. -/
def pyTrunc (q : ℚ) : ℤ := Int.tdiv q.num (q.den : ℤ)

/-- `features[name] = features[name].astype(int)` (a no-op when the column is
absent, mirroring the `if name in features.columns` guard of lines 391-394). -/
def astypeInt (t : Table) (name : String) : Table :=
  t.map (fun c =>
    if c.1 = name then (c.1, c.2.map (fun q => ((pyTrunc q : ℤ) : ℚ))) else c)

/-- `features.sort_index(axis=1)` (line 397): stable sort of the columns by
name, lexicographically. -/
def sortColumns (t : Table) : Table :=
  t.insertionSort (fun a b => a.1 ≤ b.1)

/-- Lines 355-397 of `fit` after the per-channel loop: smoothing and
normalization, the two temporal columns (`time_hour` = epoch start in hours,
`time_norm` = epoch start over last epoch start), one constant column per
metadata key, `astype(int)` for `age`/`male`, and the lexicographic column
sort.  The `float64 → float32` downcast of lines 388-389 is a numeric
representation change modelled as the identity on `ℚ` values. -/
def finalize (base : Table) (times : Col) (md : List (String × ℚ)) : Table :=
  let f1 := smoothNormalize base
  let f2 := setCol f1 "time_hour" (times.map (fun s => s / 3600))
  let f3 := setCol f2 "time_norm" (times.map (fun s => s / times.getLastD 0))
  let f4 := md.foldl (fun acc kv => setCol acc kv.1 (List.replicate times.length kv.2)) f3
  let f5 := astypeInt (astypeInt f4 "age") "male"
  sortColumns f5

/-- The whole of `SleepStaging.fit`: assemble the per-channel features, then
finalize.  `times` are the epoch start times in seconds and `md` the stored
metadata dict. -/
def fitTable (chs : List Channel) (times : Col) (md : List (String × ℚ)) : Table :=
  finalize (assembleBase chs) times md

/-- Name-level image of `setCol`: the column set gains `n` at the right end
exactly when `n` is new. -/
def nameSetCol (ns : List String) (n : String) : List String :=
  if n ∈ ns then ns else ns ++ [n]

/-- The finalized column names as a function of the channel type tags and the
metadata keys alone. -/
def fitColumnNames (chTypes : List String) (mdKeys : List String) : List String :=
  let base := chTypes.flatMap (fun c => (channelFeatureNames c).map (fun f => c ++ "_" ++ f))
  let all := base ++ base.map (fun n => n ++ "_c5min_norm")
    ++ base.map (fun n => n ++ "_p5min_norm")
  let all2 := nameSetCol (nameSetCol all "time_hour") "time_norm"
  let all3 := mdKeys.foldl nameSetCol all2
  all3.insertionSort (· ≤ ·)

instance : IsTotal (String × Col) (fun a b => a.1 ≤ b.1) :=
  ⟨fun a b => le_total a.1 b.1⟩

instance : IsTrans (String × Col) (fun a b => a.1 ≤ b.1) :=
  ⟨fun _ _ _ hab hbc => le_trans hab hbc⟩

/-! ### Inference adapter: `SleepStaging._validate_predict` (lines 415-428) -/

/-- `np.setdiff1d a b`: the sorted unique values of `a` that are not in `b`. -/
def setdiff1d (a b : List String) : List String :=
  ((a.filter (fun x => !(b.contains x))).dedup).insertionSort (· ≤ ·)

/-- The two `ValueError`s of `_validate_predict`, each carrying the list of
names printed in its message. -/
inductive FeatureMismatch where
  | missingInFeatures (names : List String)
  | missingInClassifier (names : List String)
deriving DecidableEq

/-- The feature names enumerated by a feature-mismatch error message. -/
def FeatureMismatch.names : FeatureMismatch → List String
  | .missingInFeatures ns => ns
  | .missingInClassifier ns => ns

/-- `SleepStaging._validate_predict`: first the names of the classifier that
are absent from the computed feature set (raising if any), then the names of
the computed feature set absent from the classifier (raising if any). -/
def validatePredict (clfFeatureNames featureNames : List String) : Except FeatureMismatch Unit :=
  let d1 := setdiff1d clfFeatureNames featureNames
  if d1.length ≠ 0 then .error (.missingInFeatures d1)
  else
    let d2 := setdiff1d featureNames clfFeatureNames
    if d2.length ≠ 0 then .error (.missingInClassifier d2)
    else .ok ()

/-! ### Constructor: `SleepStaging.__init__` (lines 194-247) -/

/-- A Python scalar stored in the metadata dict: a bool, an int or a float. -/
inductive MetaVal where
  | boolV (b : Bool)
  | intV (n : ℤ)
  | ratV (q : ℚ)
deriving DecidableEq

/-- The numeric value a metadata scalar takes in a Python comparison
(`True == 1`, `False == 0`). -/
def MetaVal.toRat : MetaVal → ℚ
  | .boolV b => if b then 1 else 0
  | .intV n => (n : ℚ)
  | .ratV q => q

/-- Python `int()` on a metadata scalar (floats truncate toward zero). -/
def MetaVal.toInt : MetaVal → ℤ
  | .boolV b => if b then 1 else 0
  | .intV n => n
  | .ratV q => pyTrunc q

/-- A metadata dict: an association list with (as for a Python dict) distinct
keys, in insertion order. -/
abbrev Metadata := List (String × MetaVal)

/-- `metadata[k] = v` for a key already present: replace the value in place. -/
def updateEntry (md : Metadata) (k : String) (v : MetaVal) : Metadata :=
  md.map (fun kv => if kv.1 = k then (k, v) else kv)

/-- Lines 203-209 of `__init__`, the metadata validation: when `age` is
present assert `0 < age < 120`; when `male` is present overwrite it in place
with `int(metadata["male"])` and assert the coerced value is 0 or 1.  The
returned dict is the caller's dict after the call — the source mutates it in
place and also stores the same object as `self.metadata`. -/
def validateMetadata (md : Metadata) : Except String Metadata := do
  match md.lookup "age" with
  | some a =>
      if 0 < a.toRat ∧ a.toRat < 120 then pure ()
      else throw "age must be between 0 and 120."
  | none => pure ()
  match md.lookup "male" with
  | some m =>
      let md' := updateEntry md "male" (.intV m.toInt)
      if m.toInt = 0 ∨ m.toInt = 1 then pure md'
      else throw "male must be 0 or 1."
  | none => pure md

/-- The `mne.io.BaseRaw` collaborator as seen by `__init__`: a sampling rate,
channel names, and a per-channel sample count.  The count is kept rational so
that the resampling to 100 Hz (which preserves duration) is exact. -/
structure RawModel where
  sfreq : ℚ
  ch_names : List String
  n_samples : ℚ

/-- The state built by a successful `__init__`. -/
structure InitState where
  sf : ℚ
  ch_names : List String
  ch_types : List String
  n_samples : ℚ
  metadata : Option Metadata
deriving DecidableEq

/-- `SleepStaging.__init__` (lines 194-247), in source order: metadata
validation, channel-existence checks building the kept channel lists, the
`sf > 80` sampling-rate assertion, resampling to 100 Hz when `sf != 100`
(duration-preserving), and the `duration_minutes >= 5` assertion.  The
volts→microvolts amplitude rescale of line 236 does not affect any checked
condition and is omitted from the state. -/
def sleepStagingInit (raw : RawModel) (eeg_name : String)
    (eog_name emg_name : Option String) (metadata : Option Metadata) :
    Except String InitState := do
  let md ← match metadata with
    | some m => do pure (some (← validateMetadata m))
    | none => pure none
  let chans := [(some eeg_name, "eeg"), (eog_name, "eog"), (emg_name, "emg")]
  let kept ← chans.foldlM (fun acc c =>
    match c.1 with
    | some nm =>
        if nm ∈ raw.ch_names then pure (acc ++ [(nm, c.2)])
        else throw (nm ++ " does not exist")
    | none => pure acc) ([] : List (String × String))
  let sf := raw.sfreq
  if sf > 80 then pure () else throw "Sampling frequency must be at least 80 Hz."
  let sf2 := if sf ≠ 100 then 100 else sf
  let n2 := if sf ≠ 100 then raw.n_samples * 100 / sf else raw.n_samples
  let duration_minutes := n2 / sf2 / 60
  if duration_minutes ≥ 5 then pure () else throw "At least 5 minutes of data is required."
  pure ⟨sf2, kept.map (fun c => c.1), kept.map (fun c => c.2), n2, md⟩

/-! ### The `petrosian` helper of `fit` (lines 276-289) -/

/-- `np.diff`: successive differences, `x[i+1] - x[i]`. -/
def npDiff (x : List ℚ) : List ℚ :=
  (x.zip x.tail).map (fun p => p.2 - p.1)

/-- The `nzc` helper of `fit` (lines 276-278) on one epoch: the number of
adjacent pairs whose product is negative, `((x[:-1] * x[1:]) < 0).sum()`. -/
def nzc (x : List ℚ) : ℕ :=
  ((x.zip x.tail).filter (fun p => decide (p.1 * p.2 < 0))).length

/-- The `petrosian` helper of `fit` (lines 284-289) on one epoch of `n`
samples: `log10(n) / (log10(n) + log10(n / (n + 0.4 * nzc(diff(x)))))`.
The float `log10` is abstracted as a parameter. -/
def petrosian (log10 : ℚ → ℚ) (x : List ℚ) : ℚ :=
  let n : ℚ := (x.length : ℚ)
  let ln10 := log10 n
  ln10 / (ln10 + log10 (n / (n + 0.4 * (nzc (npDiff x) : ℚ))))

/-- The count the spec calls `k` for the `petrosian` feature, built from the
spec's words alone: the number of sign changes between consecutive samples of
the epoch's first difference, computed as the count of adjacent-sample
products below zero. -/
def specSignChanges (firstDifference : List ℚ) : ℕ :=
  ((firstDifference.zip firstDifference.tail).filter
    (fun p => decide (p.1 * p.2 < 0))).length

/-- The Petrosian fractal dimension as written in the spec:
`log10(n)/(log10(n)+log10(n/(n+0.4·k)))` with `k` the sign-change count of the
first difference, for an epoch of `n` samples. -/
def specPetrosian (log10 : ℚ → ℚ) (x : List ℚ) : ℚ :=
  let n : ℚ := (x.length : ℚ)
  log10 n /
    (log10 n + log10 (n / (n + 0.4 * (specSignChanges (npDiff x) : ℚ))))

/-! ### Non-finite values in `fit` (claim about lines 297-349)

A float that may be non-finite (the NaN/inf a pathological filter output can
contain) is modelled as `Option ℚ`, `none` standing for a non-finite value.
-/

/-- A sample or feature value that may be non-finite. -/
abbrev NVal := Option ℚ

/-- Summation with IEEE contamination: one non-finite summand makes the sum
non-finite. -/
def nSum (l : List NVal) : NVal :=
  l.foldr (fun a acc =>
    match a, acc with
    | some x, some y => some (x + y)
    | _, _ => none) (some 0)

/-- Modelled from the spec (section 4.1): `sliding_window(dt_filt, sf, window=30)`
lives in `yasa/others.py`, outside the provided source; per the spec it slices
the signal into non-overlapping epochs of `spe` samples, dropping trailing
samples that do not fill a complete epoch. -/
def epochsOf (x : List NVal) (spe : ℕ) : List (List NVal) :=
  (List.range (x.length / spe)).map (fun i => (x.drop (i * spe)).take spe)

/-- `np.std(epoch, ddof=1)` on possibly non-finite data: non-finite (NaN) when
any sample is non-finite or when fewer than two samples exist (`0/0`),
otherwise `sqrt` (abstracted) of the Bessel-corrected variance. -/
def nStd (sqrtF : ℚ → ℚ) (e : List NVal) : NVal :=
  if e.length ≤ 1 then none
  else
    match nSum e with
    | none => none
    | some s =>
        let m := s / (e.length : ℚ)
        match nSum (e.map (fun a => a.map (fun x => (x - m) ^ 2))) with
        | none => none
        | some ss => some (sqrtF (ss / ((e.length : ℚ) - 1)))

/-- The `std` feature column of `fit` (line 310) computed from a filtered
channel signal: `fit` applies `np.std(epochs, ddof=1, axis=1)` to the epoched
signal and raises nothing on this path — the source contains no finiteness
check between filtering and the feature dict, which the always-`ok` `Except`
makes explicit. -/
def fitStdColumn (sqrtF : ℚ → ℚ) (filtered : List NVal) (spe : ℕ) :
    Except String (List NVal) :=
  .ok ((epochsOf filtered spe).map (nStd sqrtF))

/-! ### `predict` / `predict_proba` (lines 450-505)

Python object aliasing is modelled by a heap of tables addressed by `ℕ`
pointers; `DataFrame.copy()` allocates a fresh cell holding the same data, and
mutating one cell leaves every other cell unchanged.
-/

/-- The external pre-trained classifier (a loaded `LGBMClassifier`): its
required feature names and its two prediction capabilities. -/
structure Classifier where
  feature_name : List String
  predictFn : Table → List String
  predictProbaFn : Table → Table

/-- The mutable state of a `SleepStaging` instance around `fit`/`predict`:
a heap of allocated tables, pointers for the `_features` and `_proba`
attributes (`none` = attribute not set), the `_predicted` labels, the
deterministic feature table `fit` would compute from the stored data
(abstracted, see `fitTable`), and a counter of classifier invocations. -/
structure SSState where
  heap : List Table
  fitOutput : Table
  featuresPtr : Option ℕ
  probaPtr : Option ℕ
  predicted : Option (List String)
  clfCalls : ℕ

/-- Allocate a fresh table cell; returns its pointer. -/
def alloc (s : SSState) (t : Table) : ℕ × SSState :=
  (s.heap.length, { s with heap := s.heap ++ [t] })

/-- Dereference a pointer. -/
def heapGet (s : SSState) (p : ℕ) : Table := s.heap.getD p []

/-- In-place mutation of the table at `p` (what a caller could do to a
returned `DataFrame`). -/
def mutateAt (s : SSState) (p : ℕ) (f : Table → Table) : SSState :=
  { s with heap := s.heap.set p (f (s.heap.getD p [])) }

/-- `if not hasattr(self, "_features"): self.fit()` — run `fit` only when the
`_features` attribute is absent. -/
def ensureFit (s : SSState) : SSState :=
  match s.featuresPtr with
  | some _ => s
  | none =>
      let (p, s1) := alloc s s.fitOutput
      { s1 with featuresPtr := some p }

/-- `self._features.copy()[clf.feature_name_]` — project the feature table
onto the classifier's required columns, in the classifier's order. -/
def projectCols (t : Table) (names : List String) : Table :=
  names.filterMap (fun n => (t.find? (fun c => c.1 == n)).map (fun c => (n, c.2)))

/-- `SleepStaging.predict` (lines 450-480): ensure `fit` has run, load the
classifier for `path_to_model` (file resolution is an external concern,
abstracted as `loadModel`; its `_validate_predict` call against
`self.feature_name_` is the modelled check), project the features onto the
classifier's column order, invoke the classifier once, store `_predicted` and
the probability table `_proba`, and return the predictions. -/
def predictS (loadModel : String → Classifier) (path : String) (s : SSState) :
    Except FeatureMismatch (List String × SSState) :=
  let clf := loadModel path
  let s0 := ensureFit s
  let feats := heapGet s0 (s0.featuresPtr.getD 0)
  match validatePredict clf.feature_name (feats.map (fun c => c.1)) with
  | .error e => .error e
  | .ok _ =>
      let X := projectCols feats clf.feature_name
      let pred := clf.predictFn X
      let proba := clf.predictProbaFn X
      let (q, s1) := alloc s0 proba
      .ok (pred, { s1 with probaPtr := some q, predicted := some pred,
                           clfCalls := s0.clfCalls + 1 })

/-- `SleepStaging.predict_proba` (lines 482-505): when the `_proba` attribute
is absent first run `self.predict(path_to_model)`, then return
`self._proba.copy()` — a fresh cell holding the cached table's data.  The
`path_to_model` argument is only ever forwarded to `predict`; it and the
classifier it resolves to are irrelevant when `_proba` is cached. -/
def predictProbaS (loadModel : String → Classifier) (path : String) (s : SSState) :
    Except FeatureMismatch (ℕ × SSState) :=
  match s.probaPtr with
  | some p => .ok (alloc s (heapGet s p))
  | none =>
      match predictS loadModel path s with
      | .error e => .error e
      | .ok (_, s1) => .ok (alloc s1 (heapGet s1 (s1.probaPtr.getD 0)))

/-! ### Helper lemmas -/

theorem lookup_updateEntry_self (md : Metadata) (k : String) (v w : MetaVal)
    (h : md.lookup k = some w) : (updateEntry md k v).lookup k = some v := by
  induction md with
  | nil => simp [List.lookup] at h
  | cons kv t ih =>
      obtain ⟨a, w0⟩ := kv
      by_cases hk : a = k
      · simp only [updateEntry, List.map, if_pos hk]
        simp [List.lookup_cons]
      · have hne : (k == a) = false := beq_eq_false_iff_ne.mpr (fun hh => hk hh.symm)
        simp only [updateEntry, List.map, if_neg hk] at ih ⊢
        simp only [List.lookup_cons, hne] at h ⊢
        exact ih h

theorem lookup_updateEntry_ne (md : Metadata) (k k2 : String) (v : MetaVal)
    (h : k2 ≠ k) : (updateEntry md k v).lookup k2 = md.lookup k2 := by
  induction md with
  | nil => simp [updateEntry]
  | cons kv t ih =>
      obtain ⟨a, w0⟩ := kv
      by_cases hk : a = k
      · have hne : (k2 == k) = false := beq_eq_false_iff_ne.mpr h
        have hne2 : (k2 == a) = false := beq_eq_false_iff_ne.mpr (fun hh => h (hh.trans hk))
        simp only [updateEntry, List.map, if_pos hk] at ih ⊢
        simp only [List.lookup_cons, hne, hne2]
        exact ih
      · simp only [updateEntry, List.map, if_neg hk] at ih ⊢
        simp only [List.lookup_cons]
        cases hb : (k2 == a) with
        | true => rfl
        | false => exact ih

theorem nSum_eq_none {l : List NVal} (h : none ∈ l) : nSum l = none := by
  induction l with
  | nil => simp at h
  | cons a t ih =>
      rcases List.mem_cons.mp h with h | h
      · cases h
        rfl
      · have ht := ih h
        simp only [nSum, List.foldr_cons] at ht ⊢
        rw [ht]
        cases a <;> rfl

theorem nStd_eq_none (sqrtF : ℚ → ℚ) {e : List NVal} (h : none ∈ e) :
    nStd sqrtF e = none := by
  by_cases hl : e.length ≤ 1
  · simp [nStd, hl]
  · simp [nStd, hl, nSum_eq_none h]

/-! ### Claims -/

/-- C6 (confirmed).  For every epoch of `n` samples the `petrosian` feature of
`fit` equals the spec's closed form
`log10(n)/(log10(n)+log10(n/(n+0.4·k)))` where `k` is the number of sign
changes between consecutive samples of the epoch's first difference (the
count of adjacent-sample products below zero), for any float `log10`. -/
theorem petrosian_matches_spec (log10 : ℚ → ℚ) (x : List ℚ) :
    petrosian log10 x = specPetrosian log10 x := rfl

/-- C2 (code bug).  `__init__` rejects a recording sampled at exactly 80 Hz
even with exactly 5 minutes of data (24000 samples), because the source checks
`sf > 80` strictly, contradicting both the spec ("sampling rate below 80 Hz"
fails) and the assertion's own message ("must be at least 80 Hz"); the
5-minute duration boundary itself is inclusive, as the same recording at
100 Hz (30000 samples = exactly 5 minutes) is accepted. -/
theorem initRejectsExactly80Hz :
    sleepStagingInit ⟨80, ["C4-M1"], 24000⟩ "C4-M1" none none none
        = .error "Sampling frequency must be at least 80 Hz."
    ∧ sleepStagingInit ⟨100, ["C4-M1"], 30000⟩ "C4-M1" none none none
        = .ok ⟨100, ["C4-M1"], ["eeg"], 30000, none⟩ := by
  constructor
  · norm_num [sleepStagingInit, throw, throwThe, MonadExceptOf.throw]
  · norm_num [sleepStagingInit]
    rfl

/-- C5 (counterexample to the claim as stated).  When the filtered signal
contains a non-finite value, `fit` raises no data-quality error: the std
feature column is computed successfully (`.ok`) and contains a non-finite
value at the contaminated epoch.  Here: 4 samples, 2 samples per epoch, the
first epoch contaminated, `sqrt` instantiated with the identity. -/
theorem fitStdColumn_propagates_nonfinite :
    fitStdColumn (fun q => q) [some 1, none, some 2, some 3] 2
        = .ok [none, some (1 / 2)]
    ∧ none ∈ [none, some ((1 : ℚ) / 2)] := by
  constructor
  · norm_num [fitStdColumn, epochsOf, nStd, nSum, List.range_succ]
  · simp

/-- C5 (amended).  Feature extraction never raises on non-finite filter
output — the source has no finiteness check — and instead propagates it:
every epoch containing a non-finite sample yields a non-finite std feature
value in the computed column. -/
theorem fitStdColumn_never_errors (sqrtF : ℚ → ℚ) (filtered : List NVal) (spe : ℕ) :
    (∃ cols, fitStdColumn sqrtF filtered spe = .ok cols)
    ∧ ∀ e ∈ epochsOf filtered spe, none ∈ e → nStd sqrtF e = none :=
  ⟨⟨_, rfl⟩, fun _ _ he => nStd_eq_none sqrtF he⟩

/-- Witness for `fitStdColumn_never_errors` at a concrete contaminated
signal. -/
theorem fitStdColumn_never_errors_witness :
    (∃ cols, fitStdColumn (fun q => q) [none, some 1] 2 = .ok cols)
    ∧ nStd (fun q => q) [none, some 1] = none := by
  refine ⟨(fitStdColumn_never_errors (fun q => q) [none, some 1] 2).1, ?_⟩
  exact (fitStdColumn_never_errors (fun q => q) [none, some 1] 2).2
    [none, some 1] (by norm_num [epochsOf, List.range_succ]) (by simp)

/-- C10 (confirmed).  When the metadata dict passed to the constructor has a
`male` key, line 208 mutates the caller's dict in place (the returned dict of
`validateMetadata` is that same object): on successful construction the entry
holds the integer coercion `int(metadata["male"])` — which the subsequent
assertion constrains to 0 or 1 — in place of the originally supplied
boolean-like value, and every other key is untouched. -/
theorem validateMetadata_mutates_male (md md2 : Metadata) (v : MetaVal)
    (hm : md.lookup "male" = some v)
    (hok : validateMetadata md = .ok md2) :
    md2 = updateEntry md "male" (.intV v.toInt)
    ∧ md2.lookup "male" = some (.intV v.toInt)
    ∧ (v.toInt = 0 ∨ v.toInt = 1)
    ∧ (∀ k2, k2 ≠ "male" → md2.lookup k2 = md.lookup k2) := by
  have hmain : md2 = updateEntry md "male" (.intV v.toInt) ∧ (v.toInt = 0 ∨ v.toInt = 1) := by
    rcases hage : md.lookup "age" with _ | a
    · simp only [validateMetadata, hage, hm] at hok
      by_cases hv : v.toInt = 0 ∨ v.toInt = 1
      · simp only [hv, if_true, pure, Except.pure, bind, Except.bind, Except.ok.injEq] at hok
        exact ⟨hok.symm, hv⟩
      · simp [hv, throw, throwThe, MonadExceptOf.throw, pure, Except.pure, bind, Except.bind] at hok
    · simp only [validateMetadata, hage, hm] at hok
      by_cases ha : 0 < a.toRat ∧ a.toRat < 120
      · rw [if_pos ha] at hok
        by_cases hv : v.toInt = 0 ∨ v.toInt = 1
        · simp only [hv, if_true, pure, Except.pure, bind, Except.bind, Except.ok.injEq] at hok
          exact ⟨hok.symm, hv⟩
        · simp [hv, throw, throwThe, MonadExceptOf.throw, pure, Except.pure, bind, Except.bind] at hok
      · simp [ha, throw, throwThe, MonadExceptOf.throw, bind, Except.bind] at hok
  refine ⟨hmain.1, ?_, hmain.2, ?_⟩
  · rw [hmain.1]
    exact lookup_updateEntry_self md "male" _ v hm
  · intro k2 hk2
    rw [hmain.1]
    exact lookup_updateEntry_ne md "male" k2 _ hk2

/-- Witness for `validateMetadata_mutates_male`: passing `male = True` leaves
the caller's dict holding the integer 1 after construction. -/
theorem validateMetadata_mutates_male_witness :
    validateMetadata [("male", MetaVal.boolV true)] = .ok [("male", MetaVal.intV 1)]
    ∧ List.lookup "male" [("male", MetaVal.intV 1)] = some (MetaVal.intV 1) := by
  have h := validateMetadata_mutates_male [("male", MetaVal.boolV true)]
    [("male", MetaVal.intV 1)] (MetaVal.boolV true) rfl rfl
  exact ⟨rfl, h.2.1⟩

/-- Membership in `np.setdiff1d`: exactly the values of `a` absent from `b`. -/
theorem mem_setdiff1d {x : String} {a b : List String} :
    x ∈ setdiff1d a b ↔ x ∈ a ∧ x ∉ b := by
  unfold setdiff1d
  rw [List.Perm.mem_iff (List.perm_insertionSort _ _)]
  simp [List.mem_dedup, List.mem_filter]

/-- `np.setdiff1d a b` is empty iff every value of `a` occurs in `b`. -/
theorem setdiff1d_eq_nil {a b : List String} :
    setdiff1d a b = [] ↔ ∀ x ∈ a, x ∈ b := by
  rw [List.eq_nil_iff_forall_not_mem]
  simp only [mem_setdiff1d]
  constructor
  · intro h x hx
    by_contra hb
    exact h x ⟨hx, hb⟩
  · intro h x hxa
    exact hxa.2 (h x hxa.1)

/-- C1 (amended).  `_validate_predict` succeeds iff the classifier's feature
names and the table's feature names are equal as sets; otherwise it fails with
a feature-mismatch error that enumerates the unmatched names of one side only
— the names present only in the classifier when there are any, and otherwise
the names present only in the table — never both sides at once. -/
theorem validatePredict_spec (clf tbl : List String) :
    (validatePredict clf tbl = .ok () ↔ ∀ x, x ∈ clf ↔ x ∈ tbl)
    ∧ (∀ e, validatePredict clf tbl = .error e →
        e.names ≠ []
        ∧ (∀ x ∈ e.names, (x ∈ clf ∧ x ∉ tbl) ∨ (x ∈ tbl ∧ x ∉ clf))
        ∧ (setdiff1d clf tbl ≠ [] → e = .missingInFeatures (setdiff1d clf tbl))
        ∧ (setdiff1d clf tbl = [] → e = .missingInClassifier (setdiff1d tbl clf))) := by
  by_cases h1 : setdiff1d clf tbl = []
  · by_cases h2 : setdiff1d tbl clf = []
    · have hok : validatePredict clf tbl = .ok () := by
        simp [validatePredict, h1, h2]
      refine ⟨?_, ?_⟩
      · rw [hok]
        refine ⟨fun _ x => ⟨fun hx => setdiff1d_eq_nil.mp h1 x hx,
          fun hx => setdiff1d_eq_nil.mp h2 x hx⟩, fun _ => rfl⟩
      · intro e he
        rw [hok] at he
        exact absurd he (by simp)
    · have herr : validatePredict clf tbl
          = .error (.missingInClassifier (setdiff1d tbl clf)) := by
        simp [validatePredict, h1, h2]
      refine ⟨?_, ?_⟩
      · rw [herr]
        refine ⟨fun h => absurd h (by simp), fun hiff => ?_⟩
        exfalso
        obtain ⟨x, hx⟩ := List.exists_mem_of_ne_nil _ h2
        have := mem_setdiff1d.mp hx
        exact this.2 ((hiff x).mpr this.1)
      · intro e he
        rw [herr] at he
        injection he with he2
        subst he2
        refine ⟨?_, ?_, fun hc => absurd h1 hc, fun _ => rfl⟩
        · simpa [FeatureMismatch.names] using h2
        · intro x hx
          exact Or.inr (mem_setdiff1d.mp hx)
  · have herr : validatePredict clf tbl
        = .error (.missingInFeatures (setdiff1d clf tbl)) := by
      simp [validatePredict, h1]
    refine ⟨?_, ?_⟩
    · rw [herr]
      refine ⟨fun h => absurd h (by simp), fun hiff => ?_⟩
      exfalso
      obtain ⟨x, hx⟩ := List.exists_mem_of_ne_nil _ h1
      have := mem_setdiff1d.mp hx
      exact this.2 ((hiff x).mp this.1)
    · intro e he
      rw [herr] at he
      injection he with he2
      subst he2
      refine ⟨?_, ?_, fun _ => rfl, fun hc => absurd hc h1⟩
      · simpa [FeatureMismatch.names] using h1
      · intro x hx
        exact Or.inl (mem_setdiff1d.mp hx)

/-- C1 (counterexample to the claim as stated).  With classifier features
`["a"]` and table features `["b"]` both sides have unmatched names, yet the
raised error names only the classifier-side `"a"` and does not identify the
table-side unmatched name `"b"`. -/
theorem validatePredict_cex :
    validatePredict ["a"] ["b"] = .error (.missingInFeatures ["a"])
    ∧ "b" ∉ (FeatureMismatch.missingInFeatures ["a"]).names
    ∧ "b" ∈ setdiff1d ["b"] ["a"] := by
  refine ⟨rfl, by decide, by decide⟩

/-- Witness for `validatePredict_spec` at concrete mismatching inputs. -/
theorem validatePredict_spec_witness :
    (FeatureMismatch.missingInFeatures ["a"] : FeatureMismatch)
      = .missingInFeatures (setdiff1d ["a"] ["b"]) := by
  have h := (validatePredict_spec ["a"] ["b"]).2 (.missingInFeatures ["a"]) rfl
  exact h.2.2.1 (by decide)

/-- A freshly allocated cell holds the allocated table. -/
theorem heapGet_alloc_self (s : SSState) (t : Table) :
    heapGet (alloc s t).2 s.heap.length = t := by
  simp [heapGet, alloc, List.getD_eq_getElem?_getD, List.getElem?_concat_length]

/-- Allocation leaves existing cells unchanged. -/
theorem heapGet_alloc_lt (s : SSState) (t : Table) (p : ℕ) (h : p < s.heap.length) :
    heapGet (alloc s t).2 p = heapGet s p := by
  simp [heapGet, alloc, List.getD_eq_getElem?_getD, List.getElem?_append_left h]

/-- Mutating one cell leaves every other cell unchanged. -/
theorem heapGet_mutateAt_ne (s : SSState) (q p : ℕ) (f : Table → Table) (h : q ≠ p) :
    heapGet (mutateAt s q f) p = heapGet s p := by
  simp [heapGet, mutateAt, List.getD_eq_getElem?_getD, List.getElem?_set_ne h]

/-- `ensureFit` never invokes the classifier. -/
theorem ensureFit_clfCalls (s : SSState) : (ensureFit s).clfCalls = s.clfCalls := by
  cases h : s.featuresPtr <;> simp [ensureFit, h, alloc]

/-- A successful `predict` performs exactly one classifier invocation and
leaves the `_proba` attribute set. -/
theorem predictS_ok_state (load : String → Classifier) (path : String)
    (s : SSState) (r : List String) (s1 : SSState)
    (h : predictS load path s = .ok (r, s1)) :
    s1.clfCalls = s.clfCalls + 1 ∧ s1.probaPtr.isSome = true := by
  simp only [predictS, alloc] at h
  split at h
  · exact absurd h (by simp)
  · injection h with h2
    injection h2 with ha hb
    subst hb
    exact ⟨by simp [ensureFit_clfCalls], by simp⟩

/-- C8 (confirmed).  When a `_proba` table is cached from the last `predict`,
`predict_proba` returns a fresh copy of it without recomputing — the result
and state are independent of the `path_to_model` argument and of whatever
classifier it would resolve to, and the classifier-invocation count is
unchanged; the returned pointer is distinct from the cache, so mutating the
returned table leaves the cached table intact.  When no `_proba` is cached,
`predict_proba` first triggers `predict` (one classifier invocation,
propagating its error if any) and returns a copy of the freshly cached
table. -/
theorem predictProba_caching (load load2 : String → Classifier) (path path2 : String)
    (s : SSState) (p : ℕ) (f : Table → Table) :
    (s.probaPtr = some p → p < s.heap.length →
      predictProbaS load path s = .ok (s.heap.length, (alloc s (heapGet s p)).2)
      ∧ heapGet (alloc s (heapGet s p)).2 s.heap.length = heapGet s p
      ∧ ((alloc s (heapGet s p)).2).clfCalls = s.clfCalls
      ∧ ((alloc s (heapGet s p)).2).probaPtr = some p
      ∧ predictProbaS load2 path2 s = predictProbaS load path s
      ∧ s.heap.length ≠ p
      ∧ heapGet (mutateAt (alloc s (heapGet s p)).2 s.heap.length f) p = heapGet s p)
    ∧ (s.probaPtr = none →
        (∀ e, predictS load path s = .error e → predictProbaS load path s = .error e)
        ∧ (∀ r s1, predictS load path s = .ok (r, s1) →
            predictProbaS load path s
              = .ok (alloc s1 (heapGet s1 (s1.probaPtr.getD 0)))
            ∧ s1.clfCalls = s.clfCalls + 1)) := by
  constructor
  · intro hp hlt
    have hne : s.heap.length ≠ p := ne_of_gt hlt
    have he : predictProbaS load path s = .ok (alloc s (heapGet s p)) := by
      simp [predictProbaS, hp]
    have he2 : predictProbaS load2 path2 s = .ok (alloc s (heapGet s p)) := by
      simp [predictProbaS, hp]
    refine ⟨he, heapGet_alloc_self s _, by simp [alloc], by simp [alloc, hp],
      he2.trans he.symm, hne, ?_⟩
    rw [heapGet_mutateAt_ne _ _ _ _ hne]
    exact heapGet_alloc_lt s _ p hlt
  · intro hn
    constructor
    · intro e he
      simp [predictProbaS, hn, he]
    · intro r s1 h
      exact ⟨by simp [predictProbaS, hn, h], (predictS_ok_state load path s r s1 h).1⟩

/-- A demo classifier loader for the `predictProba_caching` witness. -/
def c8DemoLoad : String → Classifier := fun _ => ⟨["x"], fun _ => [], fun _ => []⟩

/-- A demo instance state with a cached probability table at pointer 0. -/
def c8DemoState : SSState := ⟨[[("W", [1, 0])]], [], none, some 0, none, 0⟩

/-- Witness for `predictProba_caching`: the cached case at a concrete state,
with two different model paths. -/
theorem predictProba_caching_witness :
    predictProbaS c8DemoLoad "auto" c8DemoState
        = .ok (1, (alloc c8DemoState (heapGet c8DemoState 0)).2)
    ∧ heapGet (alloc c8DemoState (heapGet c8DemoState 0)).2 1 = heapGet c8DemoState 0
    ∧ ((alloc c8DemoState (heapGet c8DemoState 0)).2).clfCalls = 0
    ∧ ((alloc c8DemoState (heapGet c8DemoState 0)).2).probaPtr = some 0
    ∧ predictProbaS c8DemoLoad "other" c8DemoState
        = predictProbaS c8DemoLoad "auto" c8DemoState
    ∧ (1 : ℕ) ≠ 0
    ∧ heapGet (mutateAt (alloc c8DemoState (heapGet c8DemoState 0)).2 1 (fun _ => [])) 0
        = heapGet c8DemoState 0 := by
  have h := (predictProba_caching c8DemoLoad c8DemoLoad "auto" "other" c8DemoState 0
    (fun _ => [])).1 rfl (by decide)
  exact h

theorem map_fst_addSuffix (suf : String) (t : Table) :
    (addSuffix suf t).map Prod.fst = (t.map Prod.fst).map (fun n => n ++ suf) := by
  simp [addSuffix, List.map_map]

theorem map_fst_smoothNormalize (t : Table) :
    (smoothNormalize t).map Prod.fst
      = t.map Prod.fst ++ (t.map Prod.fst).map (fun n => n ++ "_c5min_norm")
        ++ (t.map Prod.fst).map (fun n => n ++ "_p5min_norm") := by
  simp [smoothNormalize, addSuffix, List.map_map]
  rfl

theorem any_fst_eq_mem (t : Table) (n : String) :
    (t.any (fun c => c.1 == n)) = true ↔ n ∈ t.map Prod.fst := by
  simp [List.any_eq_true, List.mem_map]

theorem map_fst_setCol (t : Table) (n : String) (v : Col) :
    (setCol t n v).map Prod.fst = nameSetCol (t.map Prod.fst) n := by
  unfold setCol nameSetCol
  by_cases h : n ∈ t.map Prod.fst
  · rw [if_pos ((any_fst_eq_mem t n).mpr h), if_pos h, List.map_map]
    apply List.map_congr_left
    intro c _
    by_cases hc : c.1 = n <;> simp [hc, Function.comp]
  · rw [if_neg (fun hh => h ((any_fst_eq_mem t n).mp hh)), if_neg h]
    simp

theorem map_fst_foldl_setCol (g : String × ℚ → Col) (md : List (String × ℚ)) :
    ∀ (t : Table),
      (md.foldl (fun acc kv => setCol acc kv.1 (g kv)) t).map Prod.fst
        = (md.map Prod.fst).foldl nameSetCol (t.map Prod.fst) := by
  induction md with
  | nil => intro t; rfl
  | cons kv rest ih =>
      intro t
      simp only [List.foldl_cons, List.map_cons]
      rw [ih, map_fst_setCol]

theorem map_fst_astypeInt (t : Table) (n : String) :
    (astypeInt t n).map Prod.fst = t.map Prod.fst := by
  rw [astypeInt, List.map_map]
  apply List.map_congr_left
  intro c _
  by_cases hc : c.1 = n <;> simp [hc, Function.comp]

theorem map_fst_orderedInsert (p : String × Col) (t : Table) :
    (List.orderedInsert (fun a b => a.1 ≤ b.1) p t).map Prod.fst
      = List.orderedInsert (· ≤ ·) p.1 (t.map Prod.fst) := by
  induction t with
  | nil => rfl
  | cons q ts ih =>
      by_cases h : p.1 ≤ q.1
      · simp only [List.orderedInsert, if_pos h, List.map_cons]
      · simp only [List.orderedInsert, if_neg h, List.map_cons, ih]

theorem map_fst_sortColumns (t : Table) :
    (sortColumns t).map Prod.fst = (t.map Prod.fst).insertionSort (· ≤ ·) := by
  unfold sortColumns
  induction t with
  | nil => rfl
  | cons q ts ih => simp only [List.insertionSort, map_fst_orderedInsert, ih]

theorem map_fst_assembleBase (chs : List Channel) :
    (assembleBase chs).map Prod.fst
      = (chs.map Prod.fst).flatMap
          (fun c => (channelFeatureNames c).map (fun f => c ++ "_" ++ f)) := by
  simp [assembleBase, List.map_flatMap, List.flatMap_map, List.map_map]
  rfl

/-- C3 (confirmed).  The finalized feature table's column names are
lexicographically sorted, and the column order is a pure function of the
channel role tags and metadata keys alone: it is unchanged under any change of
the numeric feature values or epoch times (and, the embedding being a pure
function, running the pipeline twice on the same input trivially yields
identical columns and values). -/
theorem fitTable_columns (chs : List Channel) (times : Col) (md : List (String × ℚ)) :
    (fitTable chs times md).map Prod.fst
      = fitColumnNames (chs.map Prod.fst) (md.map Prod.fst)
    ∧ List.Sorted (· ≤ ·) ((fitTable chs times md).map Prod.fst) := by
  have h1 : (fitTable chs times md).map Prod.fst
      = fitColumnNames (chs.map Prod.fst) (md.map Prod.fst) := by
    unfold fitTable finalize fitColumnNames
    rw [map_fst_sortColumns, map_fst_astypeInt, map_fst_astypeInt,
      map_fst_foldl_setCol, map_fst_setCol, map_fst_setCol,
      map_fst_smoothNormalize, map_fst_assembleBase]
  refine ⟨h1, ?_⟩
  rw [h1]
  unfold fitColumnNames
  exact List.sorted_insertionSort _ _

theorem mem_smoothNormalize_base {c : String × Col} {t : Table} (h : c ∈ t) :
    c ∈ smoothNormalize t := by
  unfold smoothNormalize
  exact List.mem_append.mpr (Or.inl (List.mem_append.mpr (Or.inl h)))

theorem mem_smoothNormalize_rollc {n : String} {x : Col} {t : Table} (h : (n, x) ∈ t) :
    (n ++ "_c5min_norm", robust_scale (rollCentered x)) ∈ smoothNormalize t := by
  unfold smoothNormalize addSuffix
  apply List.mem_append.mpr; left
  apply List.mem_append.mpr; right
  rw [List.map_map]
  exact List.mem_map.mpr ⟨(n, x), h, rfl⟩

theorem mem_smoothNormalize_rollp {n : String} {x : Col} {t : Table} (h : (n, x) ∈ t) :
    (n ++ "_p5min_norm", robust_scale (rollPast x)) ∈ smoothNormalize t := by
  unfold smoothNormalize addSuffix
  apply List.mem_append.mpr; right
  rw [List.map_map]
  exact List.mem_map.mpr ⟨(n, x), h, rfl⟩

theorem mem_setCol_ne {c : String × Col} {t : Table} {n : String} {v : Col}
    (h : c ∈ t) (hne : c.1 ≠ n) : c ∈ setCol t n v := by
  unfold setCol
  split
  · exact List.mem_map.mpr ⟨c, h, by rw [if_neg hne]⟩
  · exact List.mem_append.mpr (Or.inl h)

theorem mem_setCol_self (t : Table) (n : String) (v : Col) : (n, v) ∈ setCol t n v := by
  unfold setCol
  split
  · next h =>
      obtain ⟨c, hc, he⟩ := List.any_eq_true.mp h
      rw [beq_iff_eq] at he
      exact List.mem_map.mpr ⟨c, hc, by rw [if_pos he]⟩
  · exact List.mem_append.mpr (Or.inr (by simp))

theorem mem_foldl_setCol_ne (g : String × ℚ → Col) {c : String × Col}
    (md : List (String × ℚ)) : ∀ {t : Table}, c ∈ t → c.1 ∉ md.map Prod.fst →
    c ∈ md.foldl (fun acc kv => setCol acc kv.1 (g kv)) t := by
  induction md with
  | nil => intro t h _; exact h
  | cons kv rest ih =>
      intro t h hn
      simp only [List.foldl_cons]
      apply ih
      · exact mem_setCol_ne h (fun hh => hn (by simp [hh]))
      · exact fun hh => hn (List.mem_cons_of_mem _ hh)

theorem mem_astypeInt_ne {c : String × Col} {t : Table} {n : String}
    (h : c ∈ t) (hne : c.1 ≠ n) : c ∈ astypeInt t n := by
  unfold astypeInt
  exact List.mem_map.mpr ⟨c, h, by rw [if_neg hne]⟩

theorem mem_sortColumns {c : String × Col} {t : Table} :
    c ∈ sortColumns t ↔ c ∈ t :=
  (List.perm_insertionSort _ t).mem_iff

theorem constant_col_foldl (nr : ℕ) (k : String) (q : ℚ) (md : List (String × ℚ)) :
    ∀ (t : Table), (k, q) ∈ md → (md.map Prod.fst).Nodup →
      (k, List.replicate nr q) ∈
        md.foldl (fun acc kv => setCol acc kv.1 (List.replicate nr kv.2)) t := by
  induction md with
  | nil => intro t h _; simp at h
  | cons kv rest ih =>
      intro t h hnd
      simp only [List.map_cons, List.nodup_cons] at hnd
      simp only [List.foldl_cons]
      rcases List.mem_cons.mp h with h | h
      · subst h
        exact mem_foldl_setCol_ne _ rest (mem_setCol_self t k _) hnd.1
      · exact ih (setCol t kv.1 _) h hnd.2

/-- A column of the smoothed table survives finalization untouched provided
its name is none of the reserved column names and no metadata key. -/
theorem survives_finalize (chs : List Channel) (times : Col)
    (md : List (String × ℚ)) {c : String × Col}
    (hc : c ∈ smoothNormalize (assembleBase chs))
    (h1 : c.1 ∉ ["time_hour", "time_norm", "age", "male"])
    (h2 : c.1 ∉ md.map Prod.fst) :
    c ∈ fitTable chs times md := by
  simp only [List.mem_cons, List.mem_singleton, not_or] at h1
  obtain ⟨hth, htn, hage, hmale, -⟩ := h1
  unfold fitTable finalize
  rw [mem_sortColumns]
  apply mem_astypeInt_ne _ hmale
  apply mem_astypeInt_ne _ hage
  apply mem_foldl_setCol_ne _ md _ h2
  exact mem_setCol_ne (mem_setCol_ne hc hth) htn

/-- C4 (confirmed).  For every assembled base feature column the pipeline
appends — keeping the base column — both derived columns: the centered
triangular-weighted rolling mean over 11 epochs with at least 1 valid sample
(`rollCentered`) and the past-only uniform rolling mean over 10 epochs
including the current one with at least 1 valid sample (`rollPast`), each
robust-scaled by median and 5th/95th percentile range (`robust_scale`), under
the suffixes `_c5min_norm` and `_p5min_norm`; provided the three names do not
collide with the temporal/metadata columns assigned later. -/
theorem smoothedColumnsAppended (chs : List Channel) (times : Col)
    (md : List (String × ℚ)) (name : String) (x : Col)
    (hmem : (name, x) ∈ assembleBase chs)
    (h1 : name ∉ ["time_hour", "time_norm", "age", "male"]
          ∧ name ∉ md.map Prod.fst)
    (h2 : name ++ "_c5min_norm" ∉ ["time_hour", "time_norm", "age", "male"]
          ∧ name ++ "_c5min_norm" ∉ md.map Prod.fst)
    (h3 : name ++ "_p5min_norm" ∉ ["time_hour", "time_norm", "age", "male"]
          ∧ name ++ "_p5min_norm" ∉ md.map Prod.fst) :
    (name, x) ∈ fitTable chs times md
    ∧ (name ++ "_c5min_norm", robust_scale (rollCentered x)) ∈ fitTable chs times md
    ∧ (name ++ "_p5min_norm", robust_scale (rollPast x)) ∈ fitTable chs times md :=
  ⟨survives_finalize chs times md (mem_smoothNormalize_base hmem) h1.1 h1.2,
   survives_finalize chs times md (mem_smoothNormalize_rollc hmem) h2.1 h2.2,
   survives_finalize chs times md (mem_smoothNormalize_rollp hmem) h3.1 h3.2⟩

/-- A demo channel for the `smoothedColumnsAppended` witness. -/
def c4DemoChannel : Channel := ("eeg", fun _ => [1, 2, 3])

/-- Witness for `smoothedColumnsAppended` on a concrete 3-epoch table. -/
theorem smoothedColumnsAppended_witness :
    (("eeg_std", ([1, 2, 3] : Col)) ∈ assembleBase [c4DemoChannel])
    ∧ (("eeg_std", ([1, 2, 3] : Col)) ∈ fitTable [c4DemoChannel] [0, 30, 60] []
       ∧ ("eeg_std" ++ "_c5min_norm", robust_scale (rollCentered [1, 2, 3]))
           ∈ fitTable [c4DemoChannel] [0, 30, 60] []
       ∧ ("eeg_std" ++ "_p5min_norm", robust_scale (rollPast [1, 2, 3]))
           ∈ fitTable [c4DemoChannel] [0, 30, 60] []) := by
  refine ⟨by decide, ?_⟩
  exact smoothedColumnsAppended [c4DemoChannel] [0, 30, 60] [] "eeg_std" [1, 2, 3]
    (by decide) (by decide) (by decide) (by decide)

/-- The metadata dict after the constructor's in-place `male` coercion of
line 208 (identity when `male` is absent). -/
def coerceMaleDict (md : Metadata) : Metadata :=
  match md.lookup "male" with
  | some m => updateEntry md "male" (.intV m.toInt)
  | none => md

theorem validateMetadata_ok (md : Metadata)
    (hage : ∀ w, md.lookup "age" = some w → 0 < w.toRat ∧ w.toRat < 120)
    (hmale : ∀ w, md.lookup "male" = some w → w.toInt = 0 ∨ w.toInt = 1) :
    validateMetadata md = .ok (coerceMaleDict md) := by
  rcases hage2 : md.lookup "age" with _ | a
  · rcases hm2 : md.lookup "male" with _ | m
    · simp only [validateMetadata, coerceMaleDict, hage2, hm2]
      rfl
    · simp only [validateMetadata, coerceMaleDict, hage2, hm2]
      rw [if_pos (hmale m hm2)]
      rfl
  · rcases hm2 : md.lookup "male" with _ | m
    · simp only [validateMetadata, coerceMaleDict, hage2, hm2]
      rw [if_pos (hage a hage2)]
      rfl
    · simp only [validateMetadata, coerceMaleDict, hage2, hm2]
      rw [if_pos (hage a hage2), if_pos (hmale m hm2)]
      rfl

theorem mem_updateEntry_ne {c : String × MetaVal} {md : Metadata} {k : String}
    {v : MetaVal} (h : c ∈ md) (hne : c.1 ≠ k) : c ∈ updateEntry md k v :=
  List.mem_map.mpr ⟨c, h, by rw [if_neg hne]⟩

theorem map_fst_updateEntry (md : Metadata) (k : String) (v : MetaVal) :
    (updateEntry md k v).map Prod.fst = md.map Prod.fst := by
  rw [updateEntry, List.map_map]
  apply List.map_congr_left
  intro c _
  by_cases h : c.1 = k <;> simp [h, Function.comp]

theorem mem_coerceMaleDict {c : String × MetaVal} {md : Metadata}
    (h : c ∈ md) (hne : c.1 ≠ "male") : c ∈ coerceMaleDict md := by
  unfold coerceMaleDict
  rcases md.lookup "male" with _ | m
  · exact h
  · exact mem_updateEntry_ne h hne

theorem map_fst_coerceMaleDict (md : Metadata) :
    (coerceMaleDict md).map Prod.fst = md.map Prod.fst := by
  unfold coerceMaleDict
  rcases md.lookup "male" with _ | m
  · rfl
  · exact map_fst_updateEntry md "male" _

/-- C9 (confirmed).  A metadata dict may contain keys other than `age` and
`male`: the constructor's validation accepts it (it only inspects the `age`
and `male` entries), and `fit` adds every such key as a constant-valued column
of the finalized table — so the exported column set is not limited to channel
features, smoothed variants, time features, `age` and `male`. -/
theorem metadataExtraKeyColumn (md : Metadata) (chs : List Channel) (times : Col)
    (k : String) (v : MetaVal)
    (hage : ∀ w, md.lookup "age" = some w → 0 < w.toRat ∧ w.toRat < 120)
    (hmale : ∀ w, md.lookup "male" = some w → w.toInt = 0 ∨ w.toInt = 1)
    (hk : (k, v) ∈ md) (hka : k ≠ "age") (hkm : k ≠ "male")
    (hnd : (md.map Prod.fst).Nodup) :
    validateMetadata md = .ok (coerceMaleDict md)
    ∧ (k, v) ∈ coerceMaleDict md
    ∧ (k, List.replicate times.length v.toRat) ∈
        fitTable chs times ((coerceMaleDict md).map (fun kv => (kv.1, kv.2.toRat))) := by
  have hmem2 : (k, v) ∈ coerceMaleDict md := mem_coerceMaleDict hk hkm
  refine ⟨validateMetadata_ok md hage hmale, hmem2, ?_⟩
  have hkq : (k, v.toRat) ∈ (coerceMaleDict md).map (fun kv => (kv.1, kv.2.toRat)) :=
    List.mem_map.mpr ⟨(k, v), hmem2, rfl⟩
  have hnd2 : (((coerceMaleDict md).map (fun kv => (kv.1, kv.2.toRat))).map Prod.fst).Nodup := by
    rw [List.map_map]
    have heq : ((coerceMaleDict md).map (Prod.fst ∘ fun kv => (kv.1, kv.2.toRat)))
        = (coerceMaleDict md).map Prod.fst := by
      apply List.map_congr_left
      intro c _
      rfl
    rw [heq, map_fst_coerceMaleDict]
    exact hnd
  unfold fitTable finalize
  rw [mem_sortColumns]
  apply mem_astypeInt_ne _ hkm
  apply mem_astypeInt_ne _ hka
  exact constant_col_foldl times.length k v.toRat _ _ hkq hnd2

/-- Witness for `metadataExtraKeyColumn`: a `weight` key becomes a constant
column. -/
theorem metadataExtraKeyColumn_witness :
    validateMetadata [("weight", MetaVal.ratV 300)]
        = .ok (coerceMaleDict [("weight", MetaVal.ratV 300)])
    ∧ ("weight", MetaVal.ratV 300) ∈ coerceMaleDict [("weight", MetaVal.ratV 300)]
    ∧ ("weight", List.replicate (1 : ℕ) ((MetaVal.ratV 300).toRat)) ∈
        fitTable [] [0] ((coerceMaleDict [("weight", MetaVal.ratV 300)]).map
          (fun kv => (kv.1, kv.2.toRat))) := by
  have h := metadataExtraKeyColumn [("weight", MetaVal.ratV 300)] [] [0]
    "weight" (MetaVal.ratV 300)
    (fun w hw => nomatch hw)
    (fun w hw => nomatch hw)
    (by decide) (by decide) (by decide) (by decide)
  exact h

/-- Sorting commutes with an increasing affine map of the values. -/
theorem npSort_map_affine (a b : ℚ) (x : List ℚ) (ha : 0 < a) :
    npSort (x.map (fun y => a * y + b)) = (npSort x).map (fun y => a * y + b) := by
  have mono : ∀ u v : ℚ, u ≤ v → a * u + b ≤ a * v + b := by
    intro u v h
    have := mul_le_mul_of_nonneg_left h ha.le
    linarith
  apply List.eq_of_perm_of_sorted (r := (· ≤ · : ℚ → ℚ → Prop))
  · exact (List.perm_insertionSort _ _).trans ((List.perm_insertionSort _ x).symm.map _)
  · exact List.sorted_insertionSort _ _
  · exact List.Pairwise.map _ (fun u v h => mono u v h) (List.sorted_insertionSort _ x)

/-- `getD` on a mapped list, inside bounds. -/
theorem getD_map_lt (f : ℚ → ℚ) (l : List ℚ) (j : ℕ) (d : ℚ) (h : j < l.length) :
    (l.map f).getD j d = f (l.getD j d) := by
  rw [List.getD_eq_getElem?_getD, List.getD_eq_getElem?_getD, List.getElem?_map,
    List.getElem?_eq_getElem h]
  simp

/-- The linear-interpolation percentile is equivariant under an increasing
affine map of the values. -/
theorem npPercentile_affine (p a b : ℚ) (x : List ℚ) (hx : x ≠ [])
    (hp0 : 0 ≤ p) (_hp1 : p ≤ 100) (ha : 0 < a) :
    npPercentile p (x.map (fun y => a * y + b)) = a * npPercentile p x + b := by
  have hn : x.length ≠ 0 := fun h => hx (List.length_eq_zero.mp h)
  have hn1 : 1 ≤ x.length := Nat.one_le_iff_ne_zero.mpr hn
  have hlen : (x.map (fun y => a * y + b)).length = x.length := List.length_map x _
  have hslen : (npSort x).length = x.length := (List.perm_insertionSort _ x).length_eq
  have hsort := npSort_map_affine a b x ha
  have hrank0 : (0 : ℚ) ≤ p * ((x.length : ℚ) - 1) / 100 := by
    apply div_nonneg _ (by norm_num)
    apply mul_nonneg hp0
    have : (1 : ℚ) ≤ (x.length : ℚ) := by exact_mod_cast hn1
    linarith
  have hi0 : 0 ≤ ⌊p * ((x.length : ℚ) - 1) / 100⌋ := Int.le_floor.mpr (by exact_mod_cast hrank0)
  simp only [npPercentile, hlen, hsort]
  rw [if_neg hn, if_neg hn]
  by_cases hbr : ⌊p * ((x.length : ℚ) - 1) / 100⌋ + 1 < (x.length : ℤ)
  · rw [if_pos hbr, if_pos hbr]
    have hjlt1 : ⌊p * ((x.length : ℚ) - 1) / 100⌋.toNat + 1 < x.length := by
      omega
    have hjlt : ⌊p * ((x.length : ℚ) - 1) / 100⌋.toNat < x.length := by omega
    rw [getD_map_lt _ _ _ _ (by omega : ⌊p * ((x.length : ℚ) - 1) / 100⌋.toNat < (npSort x).length),
      getD_map_lt _ _ _ _ (by omega : ⌊p * ((x.length : ℚ) - 1) / 100⌋.toNat + 1 < (npSort x).length)]
    ring
  · rw [if_neg hbr, if_neg hbr]
    rw [getD_map_lt _ _ _ _ (by omega : x.length - 1 < (npSort x).length)]

/-- C7 (amended).  Robust scaling is invariant under an increasing affine
transformation of a column — robust-scaling `a·x+b` with `a > 0` equals
robust-scaling `x` — provided the column's 95th and 5th percentiles differ
(so that the scaler's zero-range fallback of `_handle_zeros_in_scale`, which
replaces a zero denominator by 1, is not triggered). -/
theorem robust_scale_affine (a b : ℚ) (x : List ℚ) (ha : 0 < a)
    (hq : npPercentile 95 x ≠ npPercentile 5 x) :
    robust_scale (x.map (fun y => a * y + b)) = robust_scale x := by
  have hx : x ≠ [] := by
    rintro rfl
    exact hq rfl
  have h95 := npPercentile_affine 95 a b x hx (by norm_num) (by norm_num) ha
  have h50 := npPercentile_affine 50 a b x hx (by norm_num) (by norm_num) ha
  have h5 := npPercentile_affine 5 a b x hx (by norm_num) (by norm_num) ha
  have hsub : npPercentile 95 x - npPercentile 5 x ≠ 0 := sub_ne_zero.mpr hq
  simp only [robust_scale, h95, h50, h5]
  rw [if_neg (by
    intro h
    apply hsub
    have : a * (npPercentile 95 x - npPercentile 5 x) = 0 := by linarith
    rcases mul_eq_zero.mp this with h2 | h2
    · exact absurd h2 ha.ne'
    · exact h2), if_neg hsub]
  rw [List.map_map]
  apply List.map_congr_left
  intro y _
  have hd : a * y + b - (a * npPercentile 50 x + b) = a * (y - npPercentile 50 x) := by ring
  have hd2 : a * npPercentile 95 x + b - (a * npPercentile 5 x + b)
      = a * (npPercentile 95 x - npPercentile 5 x) := by ring
  show (a * y + b - (a * npPercentile 50 x + b))
      / (a * npPercentile 95 x + b - (a * npPercentile 5 x + b))
      = (y - npPercentile 50 x) / (npPercentile 95 x - npPercentile 5 x)
  rw [hd, hd2, mul_div_mul_left _ _ ha.ne']

/-- The 21-epoch column of the `robust_scale` counterexample: one low outlier,
nineteen equal central values, one high outlier, so the 5th and 95th
percentiles coincide while the column is not constant. -/
def x21 : List ℚ := [0, 1, 1, 1, 1, 1, 1, 1, 1, 1, 1, 1, 1, 1, 1, 1, 1, 1, 1, 1, 2]

/-- C7 (counterexample to the claim as stated).  Robust scaling is not
invariant under every positive affine map of a column: on `x21` the 5th and
95th percentiles coincide, the zero quantile range is replaced by 1, and
scaling `2·x+3` differs from scaling `x`. -/
theorem robust_scale_cex :
    (0 : ℚ) < 2
    ∧ robust_scale (x21.map (fun y => 2 * y + 3)) ≠ robust_scale x21 := by
  refine ⟨by norm_num, ?_⟩
  norm_num [robust_scale, npPercentile, x21, npSort, List.insertionSort,
    List.orderedInsert, List.getD,
    (show (19 : ℤ).toNat = 19 from rfl), (show (10 : ℤ).toNat = 10 from rfl),
    (show (1 : ℤ).toNat = 1 from rfl)]

/-- Witness for `robust_scale_affine` on a concrete column with distinct
5th/95th percentiles. -/
theorem robust_scale_affine_witness :
    robust_scale (List.map (fun y => 2 * y + 3) [0, 1, 2])
      = robust_scale ([0, 1, 2] : List ℚ) := by
  apply robust_scale_affine 2 3 [0, 1, 2] (by norm_num)
  norm_num [npPercentile, npSort, List.insertionSort, List.orderedInsert, List.getD,
    (show (1 : ℤ).toNat = 1 from rfl)]
